import Mathlib

/-!
Verification of the adaptive sample-allocation and distributed-evaluation
engine of `MLMCPy/mlmc/MLMCSimulator.py`.

Modelling conventions:
* numpy float arithmetic is modelled over `ℝ`; `np.trunc` is rounding toward
  zero (`truncR`);
* 1-d numpy arrays indexed by level are `Fin (L+1) → ℝ`, the variance matrix
  is `Fin (L+1) → Fin (Q+1) → ℝ` (at least one level and one output
  dimension, as required by the code's use of `costs[0]` and `np.amax`);
* model outputs are vectors `Fin m → ℝ` (or an abstract additive group where
  only differences matter);
* the sample source is a deterministic stream, either a function `ℕ → S`
  (inexhaustible) or a `List S` (exhaustible), with `draw_samples n`
  consuming a prefix of at most `n` elements.
-/

/-- `np.trunc`: round a float toward zero. -/
noncomputable def truncR (x : ℝ) : ℝ := if 0 ≤ x then ((⌊x⌋ : ℤ) : ℝ) else ((⌈x⌉ : ℤ) : ℝ)

/-- A real number that is (the cast of) an integer, as all sample counts are. -/
def IsIntR (x : ℝ) : Prop := ∃ k : ℤ, x = (k : ℝ)

theorem truncR_isInt (x : ℝ) : IsIntR (truncR x) := by
  unfold truncR; split
  · exact ⟨⌊x⌋, rfl⟩
  · exact ⟨⌈x⌉, rfl⟩

theorem truncR_intCast (k : ℤ) : truncR (k : ℝ) = (k : ℝ) := by
  unfold truncR
  split <;> simp

theorem IsIntR.truncR_eq {x : ℝ} (h : IsIntR x) : truncR x = x := by
  obtain ⟨k, rfl⟩ := h
  exact truncR_intCast k

theorem truncR_nonneg {x : ℝ} (h : 0 ≤ x) : 0 ≤ truncR x := by
  unfold truncR
  rw [if_pos h]
  exact_mod_cast Int.floor_nonneg.2 h

theorem truncR_le {x : ℝ} (h : 0 ≤ x) : truncR x ≤ x := by
  unfold truncR
  rw [if_pos h]
  exact Int.floor_le x

theorem truncR_zero : truncR 0 = 0 := by
  have := truncR_intCast 0
  simpa using this

theorem truncR_one : truncR 1 = 1 := by
  have := truncR_intCast 1
  simpa using this

theorem one_le_truncR {x : ℝ} (h : 1 ≤ x) : 1 ≤ truncR x := by
  unfold truncR
  rw [if_pos (le_trans zero_le_one h)]
  exact_mod_cast Int.le_floor.2 (by exact_mod_cast h)

theorem truncR_nonneg_floor {x : ℝ} (h : 0 ≤ x) : truncR x = ((⌊x⌋ : ℤ) : ℝ) := by
  unfold truncR; rw [if_pos h]

theorem IsIntR.zero : IsIntR (0 : ℝ) := ⟨0, by simp⟩

theorem IsIntR.one : IsIntR (1 : ℝ) := ⟨1, by simp⟩

theorem IsIntR.add {x y : ℝ} (hx : IsIntR x) (hy : IsIntR y) : IsIntR (x + y) := by
  obtain ⟨k, rfl⟩ := hx
  obtain ⟨m, rfl⟩ := hy
  exact ⟨k + m, by push_cast; ring⟩

theorem IsIntR.max_zero {x : ℝ} (hx : IsIntR x) : IsIntR (max x 0) := by
  rcases le_total x 0 with h | h
  · rw [max_eq_right h]; exact IsIntR.zero
  · rw [max_eq_left h]; exact hx

theorem IsIntR.one_le_of_pos {x : ℝ} (hx : IsIntR x) (h0 : 0 ≤ x) (hne : x ≠ 0) : 1 ≤ x := by
  obtain ⟨k, rfl⟩ := hx
  have hk0 : 0 ≤ k := by exact_mod_cast h0
  have hkne : k ≠ 0 := by
    intro h
    exact hne (by simp [h])
  have hk : 0 < k := lt_of_le_of_ne hk0 (Ne.symm hkne)
  exact_mod_cast hk

theorem IsIntR.toNat {x : ℝ} (hx : IsIntR x) (h0 : 0 ≤ x) : ∃ n : ℕ, x = (n : ℝ) := by
  obtain ⟨k, rfl⟩ := hx
  have : 0 ≤ k := by exact_mod_cast h0
  exact ⟨k.toNat, by exact_mod_cast (congrArg (Int.cast : ℤ → ℝ) (Int.toNat_of_nonneg this)).symm⟩

/-! ### `_determine_num_cpu_samples` (Distributed Reduction Layer split) -/

/-- `MLMCSimulator._determine_num_cpu_samples`: base share `total // num_cpus`,
with one extra sample for the `total % num_cpus` lowest ranks. -/
def determine_num_cpu_samples (numCpus cpuRank totalNumSamples : ℕ) : ℕ :=
  let numCpuSamples := totalNumSamples / numCpus
  let numResidualSamples := totalNumSamples - numCpuSamples * numCpus
  if cpuRank < numResidualSamples then numCpuSamples + 1 else numCpuSamples

/-! ### `_compute_costs` -/

/-- Single-process `_mean_over_all_cpus`: with `num_cpus == 1` the local value
is returned unchanged. -/
def mean_over_all_cpus_single {α : Type} (thisCpuValues : α) : α := thisCpuValues

/-- Single-process `_sum_over_all_cpus`: with `num_cpus == 1` the local value
is returned unchanged. -/
def sum_over_all_cpus_single {α : Type} (thisCpuValues : α) : α := thisCpuValues

/-- The declared-cost branch of `MLMCSimulator._compute_costs`: the numpy
in-place slice update `costs[1:] = costs[1:] + costs[:-1]` evaluated on the
list of declared model costs (the right-hand side is computed from the
original array before assignment). -/
def compute_costs_declared (declared : List ℝ) : List ℝ :=
  match declared with
  | [] => []
  | d :: ds => mean_over_all_cpus_single (d :: ds.zipWith (· + ·) (d :: ds))

/-- Helper for `cumulative_costs`: `acc` is the sum of the declared costs of
all levels below the current one. -/
def cumulative_costs_aux (acc : ℝ) : List ℝ → List ℝ
  | [] => []
  | d :: ds => (d + acc) :: cumulative_costs_aux (acc + d) ds

/-- The cost vector as the spec's words describe it: level `i`'s cost is its
own declared cost plus the sum of the declared costs of all lower levels
`0..i-1`. -/
def cumulative_costs (declared : List ℝ) : List ℝ :=
  cumulative_costs_aux 0 declared

/-! ### `_compute_optimal_sample_sizes` and `_fit_samples_sizes_to_target_cost` -/

/-- `sum_sqrt_vc = np.sum(np.sqrt(variances * costs), axis=0)`. -/
noncomputable def sum_sqrt_vc {L Q : ℕ} (costs : Fin (L+1) → ℝ)
    (variances : Fin (L+1) → Fin (Q+1) → ℝ) (q : Fin (Q+1)) : ℝ :=
  ∑ l, Real.sqrt (variances l q * costs l)

/-- `mu`: `np.power(epsilons, -2) * sum_sqrt_vc` in accuracy-driven mode,
`target_cost * num_cpus / sum_sqrt_vc` in budget-driven mode.

Caveat: Lean's total division returns `0` when `sum_sqrt_vc` is `0`, whereas
numpy produces `inf` and the sample sizes degenerate to NaN.  The
budget-mode theorems below therefore carry the explicit hypothesis
`0 < sum_sqrt_vc`, restricting them to the inputs on which this model and
the float program agree. -/
noncomputable def mu_value {L Q : ℕ} (targetCost : Option ℝ) (numCpus : ℕ)
    (epsilons : Fin (Q+1) → ℝ) (costs : Fin (L+1) → ℝ)
    (variances : Fin (L+1) → Fin (Q+1) → ℝ) (q : Fin (Q+1)) : ℝ :=
  match targetCost with
  | none => epsilons q ^ (-2 : ℤ) * sum_sqrt_vc costs variances q
  | some tc => tc * (numCpus : ℝ) / sum_sqrt_vc costs variances q

/-- `self._sample_sizes = np.amax(np.trunc(mu * sqrt_v_over_c), axis=1)`:
per-level, per-output-dimension candidates truncated toward zero, then the
maximum over output dimensions. -/
noncomputable def raw_sample_sizes {L Q : ℕ} (targetCost : Option ℝ) (numCpus : ℕ)
    (epsilons : Fin (Q+1) → ℝ) (costs : Fin (L+1) → ℝ)
    (variances : Fin (L+1) → Fin (Q+1) → ℝ) (l : Fin (L+1)) : ℝ :=
  Finset.univ.sup' Finset.univ_nonempty fun q =>
    truncR (mu_value targetCost numCpus epsilons costs variances q *
      Real.sqrt (variances l q / costs l))

/-- One iteration of the correction loop in
`_fit_samples_sizes_to_target_cost`, at level `i`: if level `i`'s cost is
below the remaining absolute difference, add `trunc(difference / costs[i])`
samples at level `i`, clamped to be non-negative.  The difference is always
the current `target - np.sum(costs * sample_sizes)`. -/
noncomputable def fit_step {n : ℕ} (costs : Fin n → ℝ) (targetCost : ℝ)
    (sizes : Fin n → ℝ) (i : Fin n) : Fin n → ℝ :=
  let difference := targetCost - ∑ j, costs j * sizes j
  if costs i < |difference| then
    Function.update sizes i (max (sizes i + truncR (difference / costs i)) 0)
  else sizes

/-- The correction loop: levels are visited from most to least expensive,
`for i in range(len(costs) - 1, -1, -1)`. -/
noncomputable def fit_loop {n : ℕ} (costs : Fin n → ℝ) (targetCost : ℝ)
    (sizes : Fin n → ℝ) : Fin n → ℝ :=
  (List.finRange n).reverse.foldl (fit_step costs targetCost) sizes

/-- `MLMCSimulator._fit_samples_sizes_to_target_cost`: run the correction
loop when the initial absolute difference exceeds `costs[0]`, then force one
sample at level 0 if the total allocation is zero. -/
noncomputable def fit_samples_sizes_to_target_cost {L : ℕ} (costs : Fin (L+1) → ℝ)
    (targetCost : ℝ) (sizes : Fin (L+1) → ℝ) : Fin (L+1) → ℝ :=
  let difference := targetCost - ∑ j, costs j * sizes j
  let sizes' := if costs 0 < |difference| then fit_loop costs targetCost sizes else sizes
  if (∑ j, sizes' j) = 0 then Function.update sizes' 0 1 else sizes'

/-- `MLMCSimulator._compute_optimal_sample_sizes`: raw sizes from the MLMC
formula, budget correction when a target cost is given, then
`astype(int)` (truncation toward zero). -/
noncomputable def compute_optimal_sample_sizes {L Q : ℕ} (targetCost : Option ℝ)
    (numCpus : ℕ) (epsilons : Fin (Q+1) → ℝ) (costs : Fin (L+1) → ℝ)
    (variances : Fin (L+1) → Fin (Q+1) → ℝ) : Fin (L+1) → ℝ :=
  let sizes := raw_sample_sizes targetCost numCpus epsilons costs variances
  let sizes' := match targetCost with
    | none => sizes
    | some tc => fit_samples_sizes_to_target_cost costs tc sizes
  fun l => truncR (sizes' l)

/-! ### Pilot cache and `_evaluate_sample` -/

section Evaluation

variable {S : Type} {G : Type} [AddCommGroup G]

/-- The level-difference estimator: `models[level].evaluate(sample)` minus
`models[level-1].evaluate(sample)` for `level > 0`, raw output at level 0
(the recomputation path at the end of `_evaluate_sample`). -/
def level_difference (models : ℕ → S → G) (level : ℕ) (sample : S) : G :=
  let output := models level sample
  if 0 < level then output - models (level - 1) sample else output

/-- The pilot cache built by `_compute_costs_and_variances` on a single
process from a deterministic stream: level `l` draws the pilot batch at
stream positions `l*N ..< (l+1)*N` (no reset between levels), stores
`models[l].evaluate(sample)` and subtracts the lower level's outputs
(`self._cache[level] -= lower_level_outputs`, with zeros at level 0). -/
def pilot_cache (stream : ℕ → S) (models : ℕ → S → G) (N : ℕ)
    (level i : ℕ) : G :=
  models level (stream (level * N + i)) -
    (if 0 < level then models (level - 1) (stream (level * N + i)) else 0)

/-- The cache lookup of `_evaluate_sample` once the absolute sample index is
known: the would-be pilot level is `sample_index // cpu_initial_sample_size`,
the index within that level is `sample_index - level * cpu_initial_sample_size`
(a Python `int`, possibly negative, hence `ℤ`), and the cache is consulted
exactly when the index is a valid slot and the derived level matches. -/
def evaluate_sample_lookup (models : ℕ → S → G) (cache : ℕ → ℕ → G) (N : ℕ)
    (sampleIndex level : ℕ) (sample : S) : G :=
  let cachedLevel : ℕ := sampleIndex / N
  let cachedIndex : ℤ := (sampleIndex : ℤ) - (level : ℤ) * (N : ℤ)
  if cachedIndex < (N : ℤ) ∧ cachedLevel = level then cache level cachedIndex.toNat
  else level_difference models level sample

/-- `MLMCSimulator._evaluate_sample` on a single process: the absolute index
of local sample `i` at `level` is `np.sum(self._cpu_sample_sizes[:level]) + i`;
the cache is only consulted when `initial_sample_size > 0`. -/
def evaluate_sample (models : ℕ → S → G) (cache : ℕ → ℕ → G) (N : ℕ)
    (cpuSampleSizes : ℕ → ℕ) (level i : ℕ) (sample : S) : G :=
  if 0 < N then
    evaluate_sample_lookup models cache N
      ((∑ k ∈ Finset.range level, cpuSampleSizes k) + i) level sample
  else level_difference models level sample

end Evaluation

/-! ### `_run_simulation_loop` (single process) -/

/-- Population mean of a list of reals (`np.mean`); `0` on the empty list. -/
noncomputable def mean_list (xs : List ℝ) : ℝ := xs.sum / xs.length

/-- Population variance of a list of reals (`np.var`); `0` on the empty list. -/
noncomputable def var_list (xs : List ℝ) : ℝ :=
  ((xs.map fun x => (x - mean_list xs) ^ 2).sum) / xs.length

/-- Componentwise sum of a list of output vectors (`np.sum(..., axis=0)`). -/
def vec_sum {m : ℕ} (xs : List (Fin m → ℝ)) : Fin m → ℝ :=
  fun q => (xs.map fun v => v q).sum

/-- Componentwise population variance (`np.var(..., axis=0)`). -/
noncomputable def vec_var {m : ℕ} (xs : List (Fin m → ℝ)) : Fin m → ℝ :=
  fun q => var_list (xs.map fun v => v q)

/-- The mutable state of the main simulation loop on a single process:
the remaining sample stream, `self._cpu_sample_sizes`, and the running
`estimates` and `variances` accumulators. -/
structure LoopState (m : ℕ) (S : Type) where
  src : List S
  cpuSampleSizes : ℕ → ℕ
  estimates : Fin m → ℝ
  variances : Fin m → ℝ

variable {S : Type} {m : ℕ}

/-- One `level` iteration of `_run_simulation_loop` on a single process:
skip entirely (after the synchronization gather, a no-op with one process)
when the allocated size is zero; otherwise draw, record the actual number of
samples obtained into `cpu_sample_sizes[level]`, skip the accumulation when
none were obtained, and otherwise accumulate
`sum(differences)/num` and `var(differences)/num`. -/
noncomputable def run_level (models : ℕ → S → (Fin m → ℝ)) (cache : ℕ → ℕ → (Fin m → ℝ))
    (N : ℕ) (level requested : ℕ) (st : LoopState m S) : LoopState m S :=
  if requested = 0 then st
  else
    let samples := st.src.take requested
    let rest := st.src.drop requested
    let numSamples := samples.length
    let cpuSizes' := Function.update st.cpuSampleSizes level numSamples
    if numSamples = 0 then ⟨rest, cpuSizes', st.estimates, st.variances⟩
    else
      let outputDifferences := samples.mapIdx fun i sample =>
        evaluate_sample models cache N cpuSizes' level i sample
      ⟨rest, cpuSizes',
        fun q => st.estimates q + vec_sum outputDifferences q / (numSamples : ℝ),
        fun q => st.variances q + vec_var outputDifferences q / (numSamples : ℝ)⟩

/-- The level iteration of `_run_simulation_loop`, levels in increasing
order. -/
noncomputable def run_loop (models : ℕ → S → (Fin m → ℝ)) (cache : ℕ → ℕ → (Fin m → ℝ))
    (N : ℕ) : ℕ → List ℕ → LoopState m S → LoopState m S
  | _, [], st => st
  | level, r :: rs, st =>
      run_loop models cache N (level + 1) rs (run_level models cache N level r st)

/-- `MLMCSimulator._run_simulation_loop` on a single process:
`self._cpu_sample_sizes` starts as the (single-cpu) split of
`self._sample_sizes`, the accumulators start at zero, and the source has
been reset, so `src` is the full stream. -/
noncomputable def run_simulation_loop (models : ℕ → S → (Fin m → ℝ))
    (cache : ℕ → ℕ → (Fin m → ℝ)) (N : ℕ) (sampleSizes : List ℕ) (src : List S) :
    LoopState m S :=
  run_loop models cache N 0 sampleSizes
    ⟨src, fun l => sampleSizes.getD l 0, fun _ => 0, fun _ => 0⟩

/-- The realized per-level sample sizes returned by `_run_simulation`:
`self._sample_sizes = self._sum_over_all_cpus(self._cpu_sample_sizes)`,
the identity on a single process. -/
noncomputable def run_simulation_sample_sizes (models : ℕ → S → (Fin m → ℝ))
    (cache : ℕ → ℕ → (Fin m → ℝ)) (N : ℕ) (sampleSizes : List ℕ) (src : List S) :
    ℕ → ℕ :=
  sum_over_all_cpus_single
    (run_simulation_loop models cache N sampleSizes src).cpuSampleSizes

/-! ### `_gather_arrays_over_all_cpus` -/

/-- `MLMCSimulator._gather_arrays_over_all_cpus`: with one process the local
array is returned unchanged; otherwise the per-process contributions
(`comm.allgather`, listed in ascending rank order) are filtered for nonzero
size along the concatenation axis and concatenated; if every contribution is
empty the local array is returned.  An array is modelled as the list of its
slices along the concatenation axis. -/
def gather_arrays_over_all_cpus {β : Type} (numCpus : ℕ)
    (contributions : List (List β)) (thisCpuArray : List β) : List β :=
  if numCpus = 1 then thisCpuArray
  else
    let allArrays := contributions.filter fun a => 0 < a.length
    if allArrays.length = 0 then thisCpuArray
    else allArrays.flatten

/-! ### `_process_epsilon` and the source-operation trace of `simulate` -/

/-- The configuration errors `_process_epsilon` can raise. -/
inductive SimError where
  | typeError
  | valueError
deriving DecidableEq

/-- The dynamic type of the `epsilon` argument: a float, a list/ndarray of
floats, or anything else. -/
inductive EpsilonArg where
  | scalar (x : ℝ)
  | vec (xs : List ℝ)
  | other

/-- `MLMCSimulator._process_epsilon`: a list becomes an array, a float is
broadcast to `output_size` copies, any other type is a `TypeError`; then any
entry `<= 0` is a `ValueError`, and a length different from `output_size` is
a `ValueError`. -/
noncomputable def process_epsilon (outputSize : ℕ) : EpsilonArg → Except SimError (List ℝ)
  | .other => .error .typeError
  | .scalar x =>
      let epsilon := List.replicate outputSize x
      if ∃ e ∈ epsilon, e ≤ 0 then .error .valueError
      else if epsilon.length ≠ outputSize then .error .valueError
      else .ok epsilon
  | .vec xs =>
      if ∃ e ∈ xs, e ≤ 0 then .error .valueError
      else if xs.length ≠ outputSize then .error .valueError
      else .ok xs

/-- Operations `simulate` performs on the sample source. -/
inductive SrcEv where
  | reset
  | draw (n : ℕ)
deriving DecidableEq

/-- Events of a `simulate` call that matter for the stream position: source
operations and raised configuration errors. -/
inductive Ev where
  | src (e : SrcEv)
  | raise (err : SimError)
deriving DecidableEq

/-- `_determine_output_size`: reset, draw one test batch of `num_cpus`
samples, reset again. -/
def probe_events (numCpus : ℕ) : List Ev :=
  [.src .reset, .src (.draw numCpus), .src .reset]

/-- The pilot phase (`_compute_costs_and_variances`): each level draws
`initial_sample_size` samples, with no intervening resets. -/
def pilot_events (numLevels initialSampleSize : ℕ) : List Ev :=
  (List.range numLevels).map fun _ => .src (.draw initialSampleSize)

/-- The main loop's source operations: one draw per level with a nonzero
allocated size (a zero-size level only participates in the synchronization
gather and draws nothing). -/
def main_loop_events (sampleSizes : List ℕ) : List Ev :=
  sampleSizes.foldr (fun n acc => if n = 0 then acc else .src (.draw n) :: acc) []

/-- The source-operation trace of one `simulate` call: the output-size probe,
then `_process_epsilon` (raising stops the call), then the pilot phase, then
`_run_simulation`'s reset followed by the main loop's draws. -/
noncomputable def simulate_events (numCpus numLevels initialSampleSize outputSize : ℕ)
    (epsilon : EpsilonArg) (mainSampleSizes : List ℕ) : List Ev :=
  probe_events numCpus ++
    match process_epsilon outputSize epsilon with
    | .error e => [.raise e]
    | .ok _ =>
        pilot_events numLevels initialSampleSize ++ [.src .reset] ++
          main_loop_events mainSampleSizes

/-- Stream position after one event: `reset_sampling` rewinds to the start,
`draw_samples n` advances by `n`. -/
def step_pos (p : ℕ) : Ev → ℕ
  | .src .reset => 0
  | .src (.draw n) => p + n
  | .raise _ => p

/-- Stream position after a list of events, starting from position `p`. -/
def pos_after (p : ℕ) (evs : List Ev) : ℕ := evs.foldl step_pos p

/-- `true` on a draw event. -/
def is_draw : Ev → Bool
  | .src (.draw _) => true
  | _ => false

/-- `true` on a raise event. -/
def is_raise : Ev → Bool
  | .raise _ => true
  | _ => false

/-- Number of draw events occurring strictly before the first raise. -/
def draws_before_raise (evs : List Ev) : ℕ :=
  (evs.takeWhile fun e => !(is_raise e)).countP is_draw

/-! ### Theorems for claim C6: `_determine_num_cpu_samples` -/

/-- C6: for every `total >= 0`, `process_count >= 1` and `rank` in
`[0, process_count)`, the per-process share is
`floor(total / process_count)` plus one extra unit exactly when
`rank < total mod process_count`, and the shares summed over all ranks equal
the total.  (The share is a pure function of `(total, process_count, rank)`
by construction.) -/
theorem determine_num_cpu_samples_correct (total numCpus rank : ℕ)
    (hP : 1 ≤ numCpus) (hrank : rank < numCpus) :
    determine_num_cpu_samples numCpus rank total
      = total / numCpus + (if rank < total % numCpus then 1 else 0) ∧
    ∑ r ∈ Finset.range numCpus, determine_num_cpu_samples numCpus r total = total := by
  have e := Nat.div_add_mod' total numCpus
  have hterm : ∀ r, determine_num_cpu_samples numCpus r total
      = total / numCpus + (if r < total % numCpus then 1 else 0) := by
    intro r
    simp only [determine_num_cpu_samples]
    split <;> split <;> omega
  refine ⟨hterm rank, ?_⟩
  rw [Finset.sum_congr rfl fun r _ => hterm r, Finset.sum_add_distrib,
    Finset.sum_const, Finset.card_range, smul_eq_mul]
  have hs : total % numCpus < numCpus := Nat.mod_lt _ (by omega)
  have hfil : ∑ r ∈ Finset.range numCpus, (if r < total % numCpus then 1 else 0)
      = total % numCpus := by
    rw [Finset.sum_boole]
    have : (Finset.range numCpus).filter (fun r => r < total % numCpus)
        = Finset.range (total % numCpus) := by
      ext r
      simp only [Finset.mem_filter, Finset.mem_range]
      omega
    rw [this, Finset.card_range]
    simp
  rw [hfil, mul_comm]
  omega

/-- C6 witness: concrete split of 7 samples over 3 processes at rank 1. -/
theorem determine_num_cpu_samples_correct_witness :
    (1 ≤ 3 ∧ 1 < 3) ∧
    (determine_num_cpu_samples 3 1 7 = 7 / 3 + (if 1 < 7 % 3 then 1 else 0) ∧
     ∑ r ∈ Finset.range 3, determine_num_cpu_samples 3 r 7 = 7) :=
  ⟨by decide, determine_num_cpu_samples_correct 7 3 1 (by decide) (by decide)⟩

/-! ### Theorems for claim C4: `_compute_costs` with declared model costs -/

theorem getD_zipWith_add (as bs : List ℝ) (i : ℕ) (ha : i < as.length)
    (hb : i < bs.length) :
    (List.zipWith (· + ·) as bs).getD i 0 = as.getD i 0 + bs.getD i 0 := by
  induction as generalizing bs i with
  | nil => simp at ha
  | cons a as ih =>
    cases bs with
    | nil => simp at hb
    | cons b bs =>
      cases i with
      | zero => simp
      | succ i => simpa using ih bs i (by simpa using ha) (by simpa using hb)

/-- C4 counterexample: with three models all declaring unit cost 1,
`_compute_costs` yields level-2 cost `2` (own plus the immediately lower
declared cost), while the claim's cumulative reading demands
`3` (own plus the costs of all lower levels). -/
theorem compute_costs_declared_not_cumulative :
    (compute_costs_declared [1, 1, 1]).getD 2 0 = 2 ∧
    (cumulative_costs [1, 1, 1]).getD 2 0 = 3 ∧
    compute_costs_declared [1, 1, 1] ≠ cumulative_costs [1, 1, 1] := by
  refine ⟨?_, ?_, ?_⟩
  · norm_num [compute_costs_declared, mean_over_all_cpus_single]
  · norm_num [cumulative_costs, cumulative_costs_aux]
  · intro h
    have h2 : (compute_costs_declared [1, 1, 1]).getD 2 0
        = (cumulative_costs [1, 1, 1]).getD 2 0 := by rw [h]
    norm_num [compute_costs_declared, mean_over_all_cpus_single,
      cumulative_costs, cumulative_costs_aux] at h2

/-- C4 (amended): when every model declares an explicit unit cost, level 0's
computed cost equals its declared cost, and for every level `i > 0` the
computed cost equals level `i`'s own declared cost plus the declared cost of
the immediately lower level `i-1` only (a level-difference evaluation runs
models `i` and `i-1`), not the sum of all lower levels. -/
theorem compute_costs_declared_adjacent (declared : List ℝ) :
    (declared ≠ [] → (compute_costs_declared declared).getD 0 0 = declared.getD 0 0) ∧
    (∀ i, i + 1 < declared.length →
      (compute_costs_declared declared).getD (i + 1) 0
        = declared.getD (i + 1) 0 + declared.getD i 0) := by
  constructor
  · intro hne
    cases declared with
    | nil => exact absurd rfl hne
    | cons d ds => simp [compute_costs_declared, mean_over_all_cpus_single]
  · intro i hi
    cases declared with
    | nil => simp at hi
    | cons d ds =>
      have hlen : i < ds.length := by simpa using hi
      have hlen' : i < (d :: ds).length := by simp; omega
      simp only [compute_costs_declared, mean_over_all_cpus_single,
        List.getD_cons_succ]
      exact getD_zipWith_add ds (d :: ds) i hlen hlen'

/-- C4 witness: declared costs `[2, 3, 5]`; computed level-2 cost is
`5 + 3`. -/
theorem compute_costs_declared_adjacent_witness :
    (1 + 1 < 3 ∧ ([2, 3, 5] : List ℝ) ≠ []) ∧
    (compute_costs_declared [2, 3, 5]).getD 2 0
      = ([2, 3, 5] : List ℝ).getD 2 0 + ([2, 3, 5] : List ℝ).getD 1 0 :=
  ⟨⟨by norm_num, by simp⟩,
    (compute_costs_declared_adjacent [2, 3, 5]).2 1 (by norm_num)⟩

/-! ### Theorems for claim C9: `_gather_arrays_over_all_cpus` -/

/-- C9: the gather result is the concatenation, in ascending process-rank
order, of exactly the contributions with nonzero size along the
concatenation axis; if every contribution is empty the local array is
returned unchanged; and with a single process the local array is always
returned unchanged. -/
theorem gather_arrays_over_all_cpus_correct {β : Type} (numCpus : ℕ)
    (contributions : List (List β)) (thisCpuArray : List β) :
    (numCpus = 1 →
      gather_arrays_over_all_cpus numCpus contributions thisCpuArray = thisCpuArray) ∧
    (numCpus ≠ 1 →
      ((∀ a ∈ contributions, a.length = 0) →
        gather_arrays_over_all_cpus numCpus contributions thisCpuArray = thisCpuArray) ∧
      ((∃ a ∈ contributions, 0 < a.length) →
        gather_arrays_over_all_cpus numCpus contributions thisCpuArray
          = (contributions.filter fun a => 0 < a.length).flatten)) := by
  constructor
  · intro h1
    simp [gather_arrays_over_all_cpus, h1]
  · intro hne
    constructor
    · intro hempty
      have hfil : contributions.filter (fun a => 0 < a.length) = [] := by
        rw [List.filter_eq_nil_iff]
        intro a ha
        simp [hempty a ha]
      simp [gather_arrays_over_all_cpus, hne, hfil]
    · intro hex
      have hfil : contributions.filter (fun a => 0 < a.length) ≠ [] := by
        obtain ⟨a, ha, hlen⟩ := hex
        intro hnil
        rw [List.filter_eq_nil_iff] at hnil
        exact absurd (by simpa using hlen) (by simpa using hnil a ha)
      simp only [gather_arrays_over_all_cpus, if_neg hne]
      rw [if_neg (by simpa [List.length_eq_zero] using hfil)]

/-- C9 witness: three processes contributing `[[1], [], [2]]`; the empty
rank-1 contribution is skipped and rank order is preserved. -/
theorem gather_arrays_over_all_cpus_correct_witness :
    (3 ≠ 1) ∧
    gather_arrays_over_all_cpus 3 [[1], [], [2]] [9] = [1, 2] := by
  refine ⟨by decide, ?_⟩
  have h := (gather_arrays_over_all_cpus_correct 3 [[(1:ℕ)], [], [2]] [9]).2
    (by decide)
  rw [h.2 ⟨[1], by simp, by simp⟩]
  rfl

/-! ### Theorems for claim C2: accuracy-driven sample-size formula -/

theorem raw_sample_sizes_isInt {L Q : ℕ} (targetCost : Option ℝ) (numCpus : ℕ)
    (epsilons : Fin (Q+1) → ℝ) (costs : Fin (L+1) → ℝ)
    (variances : Fin (L+1) → Fin (Q+1) → ℝ) (l : Fin (L+1)) :
    IsIntR (raw_sample_sizes targetCost numCpus epsilons costs variances l) := by
  obtain ⟨q, _, hq⟩ := Finset.exists_mem_eq_sup' (Finset.univ_nonempty)
    (fun q => truncR (mu_value targetCost numCpus epsilons costs variances q *
      Real.sqrt (variances l q / costs l)))
  rw [raw_sample_sizes, hq]
  exact truncR_isInt _

/-- The accuracy-driven sample count as the spec states it: for each output
dimension `q`, `mu_q = epsilon_q^-2 * sum over levels of sqrt(V[l,q]*C[l])`,
candidate `n[l,q] = trunc(mu_q * sqrt(V[l,q]/C[l]))`, and the level's sample
count is the maximum candidate over all output dimensions. -/
noncomputable def spec_accuracy_sample_size {L Q : ℕ} (epsilons : Fin (Q+1) → ℝ)
    (costs : Fin (L+1) → ℝ) (variances : Fin (L+1) → Fin (Q+1) → ℝ)
    (l : Fin (L+1)) : ℝ :=
  Finset.univ.sup' Finset.univ_nonempty fun q =>
    truncR ((epsilons q ^ (2 : ℕ))⁻¹ * (∑ l', Real.sqrt (variances l' q * costs l')) *
      Real.sqrt (variances l q / costs l))

/-- C2: in accuracy-driven mode (no target cost), the computed sample size of
every level equals the spec formula: maximum over output dimensions `q` of
`trunc(mu_q * sqrt(V[l,q]/C[l]))` with
`mu_q = epsilon_q^-2 * sum_l sqrt(V[l,q]*C[l])`. -/
theorem compute_optimal_sample_sizes_accuracy {L Q : ℕ} (numCpus : ℕ)
    (epsilons : Fin (Q+1) → ℝ) (costs : Fin (L+1) → ℝ)
    (variances : Fin (L+1) → Fin (Q+1) → ℝ) (l : Fin (L+1)) :
    compute_optimal_sample_sizes none numCpus epsilons costs variances l
      = spec_accuracy_sample_size epsilons costs variances l := by
  show truncR (raw_sample_sizes none numCpus epsilons costs variances l)
      = spec_accuracy_sample_size epsilons costs variances l
  rw [(raw_sample_sizes_isInt none numCpus epsilons costs variances l).truncR_eq]
  unfold raw_sample_sizes spec_accuracy_sample_size
  apply Finset.sup'_congr _ rfl
  intro q _
  have hzpow : epsilons q ^ (-2 : ℤ) = (epsilons q ^ (2 : ℕ))⁻¹ := by
    rw [show ((-2 : ℤ)) = -((2 : ℕ) : ℤ) by norm_num, zpow_neg, zpow_natCast]
  simp only [mu_value, sum_sqrt_vc, hzpow]

/-! ### Theorems for claims C8 and C10: `simulate`'s source-operation order -/

/-- C8 counterexample: calling `simulate` with the invalid epsilon `-1.0`
(scalar, non-positive) does raise a configuration error, but one draw event
(the output-size probe's test batch) occurs strictly before the raise, so the
error is not raised before any sample is drawn from the source. -/
theorem simulate_epsilon_error_after_probe_draw :
    (simulate_events 1 1 5 1 (.scalar (-1)) []).any is_raise = true ∧
    draws_before_raise (simulate_events 1 1 5 1 (.scalar (-1)) []) = 1 := by
  have heps : process_epsilon 1 (.scalar (-1)) = .error .valueError := by
    simp only [process_epsilon]
    rw [if_pos]
    exact ⟨-1, by simp, by norm_num⟩
  have htr : simulate_events 1 1 5 1 (.scalar (-1)) []
      = [.src .reset, .src (.draw 1), .src .reset, .raise .valueError] := by
    simp [simulate_events, heps, probe_events]
  rw [htr]
  exact ⟨rfl, rfl⟩

/-- C8 (amended): whenever `_process_epsilon` rejects the epsilon argument
(non-positive entry, length mismatch, or wrong type), `simulate` raises the
configuration error before any pilot-phase or main-loop sampling occurs; the
only preceding source operations are the output-size probe's reset, test
draw, and reset. -/
theorem simulate_epsilon_error_before_pilot (numCpus numLevels initialSampleSize
    outputSize : ℕ) (epsilon : EpsilonArg) (mainSampleSizes : List ℕ)
    (err : SimError) (h : process_epsilon outputSize epsilon = .error err) :
    simulate_events numCpus numLevels initialSampleSize outputSize epsilon
        mainSampleSizes
      = probe_events numCpus ++ [.raise err] := by
  simp [simulate_events, h]

/-- C8 witness: a wrong-typed epsilon raises `TypeError` right after the
probe. -/
theorem simulate_epsilon_error_before_pilot_witness :
    process_epsilon 1 .other = .error .typeError ∧
    simulate_events 2 3 7 1 .other [4, 5]
      = probe_events 2 ++ [.raise .typeError] :=
  ⟨rfl, simulate_epsilon_error_before_pilot 2 3 7 1 .other [4, 5] .typeError rfl⟩

/-- C10: on a valid epsilon, the trace of `simulate` is the probe (reset,
test draw, reset), the pilot draws, a reset, and the main-loop draws; the
probe is bracketed by resets, so whatever position `p` the stream had, the
position after the probe is `0`, i.e. the pilot phase starts drawing from
the stream's beginning, and the position after the pre-main-loop reset is
`0` again, i.e. the main loop starts drawing from the stream's beginning. -/
theorem simulate_trace_resets (numCpus numLevels initialSampleSize outputSize : ℕ)
    (epsilon : EpsilonArg) (mainSampleSizes : List ℕ) (eps : List ℝ)
    (h : process_epsilon outputSize epsilon = .ok eps) :
    simulate_events numCpus numLevels initialSampleSize outputSize epsilon
        mainSampleSizes
      = probe_events numCpus ++ pilot_events numLevels initialSampleSize ++
        [.src .reset] ++ main_loop_events mainSampleSizes ∧
    probe_events numCpus = [.src .reset, .src (.draw numCpus), .src .reset] ∧
    (∀ p, pos_after p (probe_events numCpus) = 0) ∧
    (∀ p, pos_after p (probe_events numCpus ++
        pilot_events numLevels initialSampleSize ++ [.src .reset]) = 0) := by
  refine ⟨?_, rfl, fun p => rfl, fun p => ?_⟩
  · simp [simulate_events, h]
  · unfold pos_after
    rw [List.foldl_append]
    rfl

/-- C10 witness: a valid scalar epsilon with `output_size = 1`. -/
theorem simulate_trace_resets_witness :
    process_epsilon 1 (.scalar 1) = .ok [1] ∧
    (∀ p, pos_after p (probe_events 4 ++ pilot_events 2 10 ++ [.src .reset]) = 0) := by
  have h : process_epsilon 1 (.scalar 1) = .ok [(1 : ℝ)] := by
    simp only [process_epsilon, List.replicate]
    rw [if_neg, if_neg]
    · simp
    · intro hx
      obtain ⟨e, he, hle⟩ := hx
      simp at he
      rw [he] at hle
      norm_num at hle
  exact ⟨h, (simulate_trace_resets 4 2 10 1 (.scalar 1) [3] [1] h).2.2.2⟩

/-! ### Theorems for claim C1: pilot-cache reuse in `_evaluate_sample` -/

theorem pilot_cache_eq_level_difference {S G : Type} [AddCommGroup G]
    (stream : ℕ → S) (models : ℕ → S → G) (N level j : ℕ) :
    pilot_cache stream models N level j
      = level_difference models level (stream (level * N + j)) := by
  by_cases h : 0 < level <;> simp [pilot_cache, level_difference, h]

/-- C1: with a deterministic sample source (reset before the pilot phase and
before the main loop, so the main loop's sample with absolute index
`sum(cpu_sample_sizes[:level]) + i` is `stream` at that position), whenever
the sample's derived would-be pilot level `sample_index // N` equals the
current level (whence its slot index is a valid cached slot), the value
`_evaluate_sample` returns comes from the pilot cache and is identical to
the level-difference recomputation
(`models[level].evaluate(sample) - models[level-1].evaluate(sample)`, raw
at level 0) on that sample; on any index mismatch it is that recomputation
itself. -/
theorem evaluate_sample_cache_bit_identical {S G : Type} [AddCommGroup G]
    (stream : ℕ → S) (models : ℕ → S → G) (N : ℕ) (cpuSampleSizes : ℕ → ℕ)
    (level i : ℕ) (sample : S) (hN : 0 < N)
    (hsample : sample = stream ((∑ k ∈ Finset.range level, cpuSampleSizes k) + i)) :
    (((∑ k ∈ Finset.range level, cpuSampleSizes k) + i) / N = level →
      evaluate_sample models (pilot_cache stream models N) N cpuSampleSizes level i
          sample
        = pilot_cache stream models N level
            ((∑ k ∈ Finset.range level, cpuSampleSizes k) + i - level * N)) ∧
    evaluate_sample models (pilot_cache stream models N) N cpuSampleSizes level i
        sample
      = level_difference models level sample := by
  set idx := (∑ k ∈ Finset.range level, cpuSampleSizes k) + i with hidx
  have hhit : idx / N = level →
      ((idx : ℤ) - (level : ℤ) * (N : ℤ) < (N : ℤ) ∧ idx / N = level) := by
    intro hlev
    have hle : level * N ≤ idx := by
      have h := Nat.div_mul_le_self idx N
      rw [hlev] at h
      exact h
    have hlt : idx < (level + 1) * N := by
      have h2 : idx / N < level + 1 := by omega
      exact (Nat.div_lt_iff_lt_mul hN).1 h2
    have hexp : (level + 1) * N = level * N + N := by ring
    exact ⟨by push_cast; omega, hlev⟩
  constructor
  · intro hlev
    have hcond := hhit hlev
    simp only [evaluate_sample, evaluate_sample_lookup, if_pos hN, ← hidx,
      if_pos hcond]
    congr 1
    omega
  · by_cases hcond : ((idx : ℤ) - (level : ℤ) * (N : ℤ) < (N : ℤ) ∧ idx / N = level)
    · have hlev := hcond.2
      have hle : level * N ≤ idx := by
        have h := Nat.div_mul_le_self idx N
        rw [hlev] at h
        exact h
      simp only [evaluate_sample, evaluate_sample_lookup, if_pos hN, ← hidx,
        if_pos hcond]
      have htn : ((idx : ℤ) - (level : ℤ) * (N : ℤ)).toNat = idx - level * N := by
        omega
      rw [htn, pilot_cache_eq_level_difference]
      have harith : level * N + (idx - level * N) = idx := by omega
      rw [harith, hsample]
    · simp only [evaluate_sample, evaluate_sample_lookup, if_pos hN, ← hidx,
        if_neg hcond]

/-- C1 witness: stream `n ↦ n`, models `(l, s) ↦ s * (l+1)` over `ℤ`,
pilot size 2, evaluating local sample 0 of level 1 (absolute index 2, a
cache hit). -/
theorem evaluate_sample_cache_bit_identical_witness :
    (0 < 2) ∧
    evaluate_sample (fun l s => ((s : ℤ) * ((l : ℤ) + 1)))
        (pilot_cache (fun n => n) (fun l s => ((s : ℤ) * ((l : ℤ) + 1))) 2) 2
        (fun _ => 2) 1 0 2
      = level_difference (fun l s => ((s : ℤ) * ((l : ℤ) + 1))) 1 2 :=
  ⟨by decide,
    (evaluate_sample_cache_bit_identical (fun n => n)
      (fun l s => ((s : ℤ) * ((l : ℤ) + 1))) 2 (fun _ => 2) 1 0 2
      (by decide) (by decide)).2⟩

/-! ### Invariants of the budget correction pass -/

theorem sum_mul_update {n : ℕ} (c s : Fin n → ℝ) (i : Fin n) (v : ℝ) :
    ∑ j, c j * Function.update s i v j = (∑ j, c j * s j) + c i * (v - s i) := by
  have h : (fun j => c j * Function.update s i v j)
      = Function.update (fun j => c j * s j) i (c i * v) := by
    funext j
    by_cases hj : j = i
    · subst hj
      simp
    · simp [Function.update_noteq hj]
  rw [h, Finset.sum_update_of_mem (Finset.mem_univ i),
    Finset.sum_eq_sum_diff_singleton_add (Finset.mem_univ i) fun j => c j * s j]
  ring

/-- `fit_step` keeps the sizes non-negative integers (the clamp `max _ 0` and
the integrality of `trunc`). -/
theorem fit_step_nonneg_int {n : ℕ} (c : Fin n → ℝ) (T : ℝ) (s : Fin n → ℝ)
    (i : Fin n) (hnn : ∀ l, 0 ≤ s l) (hint : ∀ l, IsIntR (s l)) :
    (∀ l, 0 ≤ fit_step c T s i l) ∧ (∀ l, IsIntR (fit_step c T s i l)) := by
  unfold fit_step
  split
  · constructor <;> intro l <;> by_cases hl : l = i
    · subst hl
      simp only [Function.update_same]
      exact le_max_right _ _
    · simpa [Function.update_noteq hl] using hnn l
    · subst hl
      simp only [Function.update_same]
      exact ((hint _).add (truncR_isInt _)).max_zero
    · simpa [Function.update_noteq hl] using hint l
  · exact ⟨hnn, hint⟩

/-- When the remaining difference is non-negative, `fit_step` only adds
samples, decreases the difference, and keeps it non-negative. -/
theorem fit_step_d_nonneg {n : ℕ} (c : Fin n → ℝ) (T : ℝ) (s : Fin n → ℝ)
    (i : Fin n) (hc : ∀ l, 0 < c l) (hnn : ∀ l, 0 ≤ s l)
    (hd : 0 ≤ T - ∑ j, c j * s j) :
    0 ≤ T - ∑ j, c j * fit_step c T s i j := by
  unfold fit_step
  split
  case isTrue h =>
    set d := T - ∑ j, c j * s j with hdd
    rw [abs_of_nonneg hd] at h
    have hδ1 : (1 : ℝ) ≤ truncR (d / c i) :=
      one_le_truncR (le_of_lt ((one_lt_div (hc i)).2 h))
    have hδle : truncR (d / c i) ≤ d / c i :=
      truncR_le (div_nonneg hd (hc i).le)
    have hmax : max (s i + truncR (d / c i)) 0 = s i + truncR (d / c i) :=
      max_eq_left (by nlinarith [hnn i])
    rw [hmax, sum_mul_update]
    have : c i * truncR (d / c i) ≤ d := by
      rw [← le_div_iff₀' (hc i)]
      exact hδle
    nlinarith
  case isFalse h => exact hd

/-- After `fit_step` at level 0, the remaining difference is at most
`costs[0]` (given it was non-negative before). -/
theorem fit_step_zero_bound {n : ℕ} (c : Fin (n+1) → ℝ) (T : ℝ)
    (s : Fin (n+1) → ℝ) (hc : ∀ l, 0 < c l) (hnn : ∀ l, 0 ≤ s l)
    (hd : 0 ≤ T - ∑ j, c j * s j) :
    T - ∑ j, c j * fit_step c T s 0 j ≤ c 0 := by
  unfold fit_step
  split
  case isTrue h =>
    set d := T - ∑ j, c j * s j with hdd
    rw [abs_of_nonneg hd] at h
    have hδ1 : (1 : ℝ) ≤ truncR (d / c 0) :=
      one_le_truncR (le_of_lt ((one_lt_div (hc 0)).2 h))
    have hmax : max (s 0 + truncR (d / c 0)) 0 = s 0 + truncR (d / c 0) :=
      max_eq_left (by nlinarith [hnn 0])
    rw [hmax, sum_mul_update]
    have hfl : truncR (d / c 0) = ((⌊d / c 0⌋ : ℤ) : ℝ) :=
      truncR_nonneg_floor (div_nonneg hd (hc 0).le)
    have hlow : d / c 0 - 1 < ((⌊d / c 0⌋ : ℤ) : ℝ) := Int.sub_one_lt_floor _
    have hcne : c 0 ≠ 0 := (hc 0).ne'
    have : d - c 0 < c 0 * truncR (d / c 0) := by
      rw [hfl]
      have hm := mul_lt_mul_of_pos_left hlow (hc 0)
      calc d - c 0 = c 0 * (d / c 0 - 1) := by
            rw [mul_sub, mul_one, mul_div_cancel₀ _ hcne]
        _ < c 0 * ((⌊d / c 0⌋ : ℤ) : ℝ) := hm
    nlinarith
  case isFalse h =>
    set d := T - ∑ j, c j * s j with hdd
    rw [abs_of_nonneg hd] at h
    linarith [not_lt.1 h]

/-- The correction loop preserves non-negativity and integrality of the
sizes, and (for positive costs) non-negativity of the remaining
difference. -/
theorem fit_foldl_invariant {n : ℕ} (c : Fin n → ℝ) (T : ℝ) (hc : ∀ l, 0 < c l) :
    ∀ (idxs : List (Fin n)) (s : Fin n → ℝ), (∀ l, 0 ≤ s l) → (∀ l, IsIntR (s l)) →
      0 ≤ T - ∑ j, c j * s j →
      (∀ l, 0 ≤ (idxs.foldl (fit_step c T) s) l) ∧
      (∀ l, IsIntR ((idxs.foldl (fit_step c T) s) l)) ∧
      0 ≤ T - ∑ j, c j * (idxs.foldl (fit_step c T) s) j := by
  intro idxs
  induction idxs with
  | nil => exact fun s h1 h2 h3 => ⟨h1, h2, h3⟩
  | cons i idxs ih =>
    intro s h1 h2 h3
    have hstep := fit_step_nonneg_int c T s i h1 h2
    exact ih (fit_step c T s i) hstep.1 hstep.2 (fit_step_d_nonneg c T s i hc h1 h3)

/-- The correction loop preserves non-negativity and integrality of the
sizes unconditionally (no sign information about the difference needed). -/
theorem fit_foldl_nonneg_int {n : ℕ} (c : Fin n → ℝ) (T : ℝ) :
    ∀ (idxs : List (Fin n)) (s : Fin n → ℝ), (∀ l, 0 ≤ s l) → (∀ l, IsIntR (s l)) →
      (∀ l, 0 ≤ (idxs.foldl (fit_step c T) s) l) ∧
      (∀ l, IsIntR ((idxs.foldl (fit_step c T) s) l)) := by
  intro idxs
  induction idxs with
  | nil => exact fun s h1 h2 => ⟨h1, h2⟩
  | cons i idxs ih =>
    intro s h1 h2
    have hstep := fit_step_nonneg_int c T s i h1 h2
    exact ih (fit_step c T s i) hstep.1 hstep.2

/-- The loop `for i in range(len(costs)-1, -1, -1)` processes level 0 last. -/
theorem fit_loop_eq_last_zero {n : ℕ} (c : Fin (n+1) → ℝ) (T : ℝ)
    (s : Fin (n+1) → ℝ) :
    fit_loop c T s
      = fit_step c T
          ((((List.finRange n).map Fin.succ).reverse).foldl (fit_step c T) s) 0 := by
  unfold fit_loop
  rw [List.finRange_succ_eq_map, List.reverse_cons, List.foldl_append]
  rfl

/-! ### Non-negativity and integrality of the optimizer's output -/

theorem sum_sqrt_vc_nonneg {L Q : ℕ} (costs : Fin (L+1) → ℝ)
    (variances : Fin (L+1) → Fin (Q+1) → ℝ) (q : Fin (Q+1)) :
    0 ≤ sum_sqrt_vc costs variances q :=
  Finset.sum_nonneg fun _ _ => Real.sqrt_nonneg _

theorem mu_value_nonneg {L Q : ℕ} (targetCost : Option ℝ) (numCpus : ℕ)
    (epsilons : Fin (Q+1) → ℝ) (costs : Fin (L+1) → ℝ)
    (variances : Fin (L+1) → Fin (Q+1) → ℝ) (q : Fin (Q+1))
    (hT : ∀ t, targetCost = some t → 0 ≤ t) :
    0 ≤ mu_value targetCost numCpus epsilons costs variances q := by
  cases targetCost with
  | none =>
    apply mul_nonneg _ (sum_sqrt_vc_nonneg costs variances q)
    rw [show ((-2 : ℤ)) = -((2 : ℕ) : ℤ) by norm_num, zpow_neg, zpow_natCast]
    exact inv_nonneg.2 (sq_nonneg _)
  | some t =>
    exact div_nonneg (mul_nonneg (hT t rfl) (Nat.cast_nonneg _))
      (sum_sqrt_vc_nonneg costs variances q)

theorem raw_sample_sizes_nonneg {L Q : ℕ} (targetCost : Option ℝ) (numCpus : ℕ)
    (epsilons : Fin (Q+1) → ℝ) (costs : Fin (L+1) → ℝ)
    (variances : Fin (L+1) → Fin (Q+1) → ℝ) (l : Fin (L+1))
    (hT : ∀ t, targetCost = some t → 0 ≤ t) :
    0 ≤ raw_sample_sizes targetCost numCpus epsilons costs variances l := by
  refine le_trans ?_ (Finset.le_sup'
    (fun q => truncR (mu_value targetCost numCpus epsilons costs variances q *
      Real.sqrt (variances l q / costs l))) (Finset.mem_univ 0))
  exact truncR_nonneg (mul_nonneg
    (mu_value_nonneg targetCost numCpus epsilons costs variances 0 hT)
    (Real.sqrt_nonneg _))

/-- `_fit_samples_sizes_to_target_cost` keeps the sizes non-negative
integers and guarantees a total allocation of at least one sample. -/
theorem fit_result_nonneg_int_sum {L : ℕ} (costs : Fin (L+1) → ℝ) (targetCost : ℝ)
    (sizes : Fin (L+1) → ℝ) (hnn : ∀ l, 0 ≤ sizes l) (hint : ∀ l, IsIntR (sizes l)) :
    (∀ l, 0 ≤ fit_samples_sizes_to_target_cost costs targetCost sizes l) ∧
    (∀ l, IsIntR (fit_samples_sizes_to_target_cost costs targetCost sizes l)) ∧
    1 ≤ ∑ l, fit_samples_sizes_to_target_cost costs targetCost sizes l := by
  unfold fit_samples_sizes_to_target_cost
  set s1 := if costs 0 < |targetCost - ∑ j, costs j * sizes j|
    then fit_loop costs targetCost sizes else sizes with hs1
  have h1 : (∀ l, 0 ≤ s1 l) ∧ (∀ l, IsIntR (s1 l)) := by
    rw [hs1]
    split
    · exact fit_foldl_nonneg_int costs targetCost _ sizes hnn hint
    · exact ⟨hnn, hint⟩
  split
  case isTrue hz =>
    have hall : ∀ l, s1 l = 0 := by
      intro l
      have := (Finset.sum_eq_zero_iff_of_nonneg
        (fun j _ => h1.1 j)).1 hz l (Finset.mem_univ l)
      exact this
    refine ⟨?_, ?_, ?_⟩
    · intro l
      by_cases hl : l = 0
      · subst hl
        simp
      · simpa [Function.update_noteq hl] using h1.1 l
    · intro l
      by_cases hl : l = 0
      · subst hl
        simpa using IsIntR.one
      · simpa [Function.update_noteq hl] using h1.2 l
    · rw [Finset.sum_update_of_mem (Finset.mem_univ 0)]
      have : ∑ l ∈ Finset.univ \ {0}, s1 l = 0 :=
        Finset.sum_eq_zero fun l _ => hall l
      rw [this]
      norm_num
  case isFalse hz =>
    refine ⟨h1.1, h1.2, ?_⟩
    obtain ⟨l, hl⟩ : ∃ l, s1 l ≠ 0 := by
      by_contra hno
      push_neg at hno
      exact hz (Finset.sum_eq_zero fun l _ => hno l)
    have h1l : 1 ≤ s1 l := (h1.2 l).one_le_of_pos (h1.1 l) hl
    calc (1 : ℝ) ≤ s1 l := h1l
      _ ≤ ∑ j, s1 j := Finset.single_le_sum (fun j _ => h1.1 j) (Finset.mem_univ l)

/-- In budget mode the optimizer is the budget correction applied to the raw
sizes, followed by `astype(int)`. -/
theorem compute_optimal_sample_sizes_budget_def {L Q : ℕ} (tc : ℝ)
    (numCpus : ℕ) (epsilons : Fin (Q+1) → ℝ) (costs : Fin (L+1) → ℝ)
    (variances : Fin (L+1) → Fin (Q+1) → ℝ) (l : Fin (L+1)) :
    compute_optimal_sample_sizes (some tc) numCpus epsilons costs variances l
      = truncR (fit_samples_sizes_to_target_cost costs tc
          (raw_sample_sizes (some tc) numCpus epsilons costs variances) l) := rfl

/-! ### Theorems for claim C5: sample-size vector invariants -/

theorem sup'_fin_one (f : Fin 1 → ℝ) :
    Finset.univ.sup' Finset.univ_nonempty f = f 0 := by
  apply le_antisymm
  · exact Finset.sup'_le _ f fun q _ => le_of_eq (by rw [Subsingleton.elim q 0])
  · exact Finset.le_sup' f (Finset.mem_univ 0)

/-- C5 (amended): on the optimizer's actual domain — strictly positive
costs, non-negative variances, strictly positive (validated) epsilons, a
positive target cost when given, and, in budget mode, a non-degenerate pilot
(every output dimension has `sum_sqrt_vc > 0`; with an all-zero-variance
output dimension the program divides by zero and its sizes degenerate to
NaN) — the sample sizes are non-negative integers in both modes, and in
budget-driven mode the total allocation is at least 1 (the level-0 fallback
lives in `_fit_samples_sizes_to_target_cost`).  In accuracy-driven mode the
sum can be 0, so the "sum at least 1" part holds only for budget mode. -/
theorem sample_sizes_nonneg_int_budget_sum {L Q : ℕ} (targetCost : Option ℝ)
    (numCpus : ℕ) (epsilons : Fin (Q+1) → ℝ) (costs : Fin (L+1) → ℝ)
    (variances : Fin (L+1) → Fin (Q+1) → ℝ)
    (hc : ∀ l, 0 < costs l) (heps : ∀ q, 0 < epsilons q)
    (hv : ∀ l q, 0 ≤ variances l q)
    (hT : ∀ t, targetCost = some t → 0 < t)
    (hS : ∀ t, targetCost = some t → ∀ q, 0 < sum_sqrt_vc costs variances q) :
    (∀ l, 0 ≤ compute_optimal_sample_sizes targetCost numCpus epsilons costs
        variances l ∧
      ∃ k : ℕ, compute_optimal_sample_sizes targetCost numCpus epsilons costs
        variances l = (k : ℝ)) ∧
    (targetCost ≠ none →
      1 ≤ ∑ l, compute_optimal_sample_sizes targetCost numCpus epsilons costs
        variances l) := by
  have hT' : ∀ t, targetCost = some t → 0 ≤ t := fun t h => (hT t h).le
  cases targetCost with
  | none =>
    have hfin : ∀ l, compute_optimal_sample_sizes none numCpus epsilons costs
        variances l = raw_sample_sizes none numCpus epsilons costs variances l :=
      fun l => (raw_sample_sizes_isInt none numCpus epsilons costs variances l).truncR_eq
    constructor
    · intro l
      rw [hfin l]
      have hnn := raw_sample_sizes_nonneg none numCpus epsilons costs variances l hT'
      exact ⟨hnn, (raw_sample_sizes_isInt none numCpus epsilons costs variances l).toNat hnn⟩
    · intro hne
      exact absurd rfl hne
  | some tc =>
    have hfit := fit_result_nonneg_int_sum costs tc
      (raw_sample_sizes (some tc) numCpus epsilons costs variances)
      (fun l => raw_sample_sizes_nonneg (some tc) numCpus epsilons costs variances l hT')
      (fun l => raw_sample_sizes_isInt (some tc) numCpus epsilons costs variances l)
    have hfin : ∀ l, compute_optimal_sample_sizes (some tc) numCpus epsilons costs
        variances l = fit_samples_sizes_to_target_cost costs tc
          (raw_sample_sizes (some tc) numCpus epsilons costs variances) l := by
      intro l
      rw [compute_optimal_sample_sizes_budget_def]
      exact (hfit.2.1 l).truncR_eq
    constructor
    · intro l
      rw [hfin l]
      exact ⟨hfit.1 l, (hfit.2.1 l).toNat (hfit.1 l)⟩
    · intro _
      rw [Finset.sum_congr rfl fun l _ => hfin l]
      exact hfit.2.2

/-- C5 counterexample: in accuracy-driven mode with a strictly positive cost
vector and all-zero (non-negative) variances, one level, one output
dimension, epsilon 1, the sample-size vector sums to 0, not at least 1 (the
"at least one sample" fallback only runs in budget mode). -/
theorem accuracy_mode_sum_zero :
    (∀ l : Fin 1, 0 < (fun _ : Fin 1 => (1 : ℝ)) l) ∧
    (∀ (l : Fin 1) (q : Fin 1), 0 ≤ (fun (_ : Fin 1) (_ : Fin 1) => (0 : ℝ)) l q) ∧
    ¬ (1 ≤ ∑ l, compute_optimal_sample_sizes none 1 (fun _ : Fin 1 => (1 : ℝ))
        (fun _ : Fin 1 => (1 : ℝ)) (fun (_ : Fin 1) (_ : Fin 1) => (0 : ℝ)) l) := by
  refine ⟨fun l => one_pos, fun l q => le_refl 0, ?_⟩
  have hS : ∀ q, sum_sqrt_vc (fun _ : Fin 1 => (1 : ℝ))
      (fun (_ : Fin 1) (_ : Fin 1) => (0 : ℝ)) q = 0 := by
    intro q
    simp [sum_sqrt_vc]
  have hmu : ∀ q, mu_value none 1 (fun _ : Fin 1 => (1 : ℝ))
      (fun _ : Fin 1 => (1 : ℝ)) (fun (_ : Fin 1) (_ : Fin 1) => (0 : ℝ)) q = 0 := by
    intro q
    simp [mu_value, hS q]
  have hraw : ∀ l, raw_sample_sizes none 1 (fun _ : Fin 1 => (1 : ℝ))
      (fun _ : Fin 1 => (1 : ℝ)) (fun (_ : Fin 1) (_ : Fin 1) => (0 : ℝ)) l = 0 := by
    intro l
    unfold raw_sample_sizes
    rw [sup'_fin_one]
    rw [hmu 0, zero_mul, truncR_zero]
  have hfin : ∀ l, compute_optimal_sample_sizes none 1 (fun _ : Fin 1 => (1 : ℝ))
      (fun _ : Fin 1 => (1 : ℝ)) (fun (_ : Fin 1) (_ : Fin 1) => (0 : ℝ)) l = 0 := by
    intro l
    show truncR (raw_sample_sizes none 1 (fun _ : Fin 1 => (1 : ℝ))
      (fun _ : Fin 1 => (1 : ℝ)) (fun (_ : Fin 1) (_ : Fin 1) => (0 : ℝ)) l) = 0
    rw [hraw l, truncR_zero]
  rw [Finset.sum_congr rfl fun l _ => hfin l]
  norm_num

/-- C5 witness: budget mode with target cost 1, unit costs and unit
(non-degenerate) variances. -/
theorem sample_sizes_nonneg_int_budget_sum_witness :
    ((∀ t : ℝ, some (1 : ℝ) = some t → 0 < t) ∧
     (∀ t : ℝ, some (1 : ℝ) = some t → ∀ q : Fin 1,
       0 < sum_sqrt_vc (fun _ : Fin 1 => (1 : ℝ))
         (fun (_ : Fin 1) (_ : Fin 1) => (1 : ℝ)) q)) ∧
    ((∀ l, 0 ≤ compute_optimal_sample_sizes (some (1 : ℝ)) 1 (fun _ : Fin 1 => (1 : ℝ))
        (fun _ : Fin 1 => (1 : ℝ)) (fun (_ : Fin 1) (_ : Fin 1) => (1 : ℝ)) l ∧
      ∃ k : ℕ, compute_optimal_sample_sizes (some (1 : ℝ)) 1 (fun _ : Fin 1 => (1 : ℝ))
        (fun _ : Fin 1 => (1 : ℝ)) (fun (_ : Fin 1) (_ : Fin 1) => (1 : ℝ)) l = (k : ℝ)) ∧
    (some (1 : ℝ) ≠ none →
      1 ≤ ∑ l, compute_optimal_sample_sizes (some (1 : ℝ)) 1 (fun _ : Fin 1 => (1 : ℝ))
        (fun _ : Fin 1 => (1 : ℝ)) (fun (_ : Fin 1) (_ : Fin 1) => (1 : ℝ)) l)) := by
  have hT : ∀ t : ℝ, some (1 : ℝ) = some t → 0 < t := by
    intro t ht
    injection ht with h
    rw [← h]
    norm_num
  have hS : ∀ t : ℝ, some (1 : ℝ) = some t → ∀ q : Fin 1,
      0 < sum_sqrt_vc (fun _ : Fin 1 => (1 : ℝ))
        (fun (_ : Fin 1) (_ : Fin 1) => (1 : ℝ)) q := by
    intro t _ q
    simp [sum_sqrt_vc]
  exact ⟨⟨hT, hS⟩, sample_sizes_nonneg_int_budget_sum (some (1 : ℝ)) 1 _ _ _
    (fun _ => one_pos) (fun _ => one_pos) (fun _ _ => zero_le_one) hT hS⟩

/-! ### Theorems for claim C3: budget-fit property -/

theorem cost_mul_sqrt_div {c V : ℝ} (hc : 0 < c) (hV : 0 ≤ V) :
    c * Real.sqrt (V / c) = Real.sqrt (V * c) := by
  rw [Real.sqrt_div hV, Real.sqrt_mul hV]
  have h1 : c * (Real.sqrt V / Real.sqrt c) = Real.sqrt V * (c / Real.sqrt c) := by
    ring
  rw [h1, Real.div_sqrt]

theorem raw_sample_sizes_fin_one {L : ℕ} (targetCost : Option ℝ) (numCpus : ℕ)
    (epsilons : Fin 1 → ℝ) (costs : Fin (L+1) → ℝ)
    (variances : Fin (L+1) → Fin 1 → ℝ) (l : Fin (L+1)) :
    raw_sample_sizes targetCost numCpus epsilons costs variances l
      = truncR (mu_value targetCost numCpus epsilons costs variances 0 *
          Real.sqrt (variances l 0 / costs l)) := by
  unfold raw_sample_sizes
  rw [sup'_fin_one]

/-- With a single process, a single output dimension, and a non-degenerate
pilot (`sum_sqrt_vc > 0`, so no division by zero occurs in the program
either), the raw budget-mode allocation never exceeds the target cost: each
level's cost share is at most `mu * sqrt(V_l * C_l)` and these sum to
`mu * S = T`. -/
theorem raw_budget_total_le {L : ℕ} (epsilons : Fin 1 → ℝ)
    (costs : Fin (L+1) → ℝ) (variances : Fin (L+1) → Fin 1 → ℝ) (T : ℝ)
    (hc : ∀ l, 0 < costs l) (hv : ∀ l q, 0 ≤ variances l q) (hT : 0 ≤ T)
    (hS : 0 < sum_sqrt_vc costs variances 0) :
    ∑ l, costs l * raw_sample_sizes (some T) 1 epsilons costs variances l ≤ T := by
  have hTsome : ∀ t : ℝ, some T = some t → 0 ≤ t := by
    intro t h
    injection h with h'
    rw [← h']
    exact hT
  set S := sum_sqrt_vc costs variances 0 with hSdef
  set μ := mu_value (some T) 1 epsilons costs variances 0 with hμdef
  have hμnn : 0 ≤ μ :=
    mu_value_nonneg (some T) 1 epsilons costs variances 0 hTsome
  · have hSpos : 0 < S := hS
    have hSne : S ≠ 0 := ne_of_gt hSpos
    have hμ : μ = T / S := by
      rw [hμdef]
      show T * ((1 : ℕ) : ℝ) / S = T / S
      norm_num
    have hlev : ∀ l, costs l * raw_sample_sizes (some T) 1 epsilons costs variances l
        ≤ μ * Real.sqrt (variances l 0 * costs l) := by
      intro l
      rw [raw_sample_sizes_fin_one]
      have h1 : truncR (μ * Real.sqrt (variances l 0 / costs l))
          ≤ μ * Real.sqrt (variances l 0 / costs l) :=
        truncR_le (mul_nonneg hμnn (Real.sqrt_nonneg _))
      calc costs l * truncR (μ * Real.sqrt (variances l 0 / costs l))
          ≤ costs l * (μ * Real.sqrt (variances l 0 / costs l)) :=
            mul_le_mul_of_nonneg_left h1 (hc l).le
        _ = μ * (costs l * Real.sqrt (variances l 0 / costs l)) := by ring
        _ = μ * Real.sqrt (variances l 0 * costs l) := by
            rw [cost_mul_sqrt_div (hc l) (hv l 0)]
    calc ∑ l, costs l * raw_sample_sizes (some T) 1 epsilons costs variances l
        ≤ ∑ l, μ * Real.sqrt (variances l 0 * costs l) :=
          Finset.sum_le_sum fun l _ => hlev l
      _ = μ * S := by rw [hSdef, sum_sqrt_vc, Finset.mul_sum]
      _ = T := by rw [hμ, div_mul_cancel₀ T hSne]

/-- After the full budget correction, the realized total cost is within
`costs[0]` of the target, provided the sizes entering the pass are
non-negative integers whose projected cost does not exceed the target. -/
theorem fit_result_bound {L : ℕ} (c : Fin (L+1) → ℝ) (T : ℝ) (s : Fin (L+1) → ℝ)
    (hc : ∀ l, 0 < c l) (hT : 0 < T) (hnn : ∀ l, 0 ≤ s l)
    (hint : ∀ l, IsIntR (s l)) (hd : 0 ≤ T - ∑ j, c j * s j) :
    |T - ∑ l, c l * fit_samples_sizes_to_target_cost c T s l| ≤ c 0 := by
  unfold fit_samples_sizes_to_target_cost
  set s1 := if c 0 < |T - ∑ j, c j * s j| then fit_loop c T s else s with hs1
  have h1 : (∀ l, 0 ≤ s1 l) ∧ 0 ≤ T - ∑ j, c j * s1 j ∧
      T - ∑ j, c j * s1 j ≤ c 0 := by
    rw [hs1]
    split
    case isTrue hg =>
      rw [fit_loop_eq_last_zero]
      set sp := (((List.finRange L).map Fin.succ).reverse).foldl (fit_step c T) s
        with hsp
      have hinv := fit_foldl_invariant c T hc
        (((List.finRange L).map Fin.succ).reverse) s hnn hint hd
      rw [← hsp] at hinv
      have hstep := fit_step_nonneg_int c T sp 0 hinv.1 hinv.2.1
      exact ⟨hstep.1, fit_step_d_nonneg c T sp 0 hc hinv.1 hinv.2.2,
        fit_step_zero_bound c T sp hc hinv.1 hinv.2.2⟩
    case isFalse hg =>
      have hb : |T - ∑ j, c j * s j| ≤ c 0 := not_lt.1 hg
      rw [abs_of_nonneg hd] at hb
      exact ⟨hnn, hd, hb⟩
  split
  case isTrue hz =>
    have hall : ∀ l, s1 l = 0 := fun l =>
      (Finset.sum_eq_zero_iff_of_nonneg fun j _ => h1.1 j).1 hz l (Finset.mem_univ l)
    have hs1sum : ∑ j, c j * s1 j = 0 :=
      Finset.sum_eq_zero fun j _ => by rw [hall j, mul_zero]
    have hsum : ∑ l, c l * Function.update s1 0 1 l = c 0 := by
      rw [sum_mul_update, hs1sum, hall 0]
      ring
    rw [hsum]
    have hTle : T ≤ c 0 := by
      have hb := h1.2.2
      rw [hs1sum] at hb
      linarith
    rw [abs_le]
    constructor <;> linarith [hc 0]
  case isFalse hz =>
    rw [abs_le]
    exact ⟨by linarith [h1.2.1, hc 0], by linarith [h1.2.2]⟩

/-- C3 (amended): in budget-driven mode, restricted to single-process
execution, a single output dimension, a cost vector whose level-0 entry
is minimal (level 0 is the cheapest level, as the data model prescribes),
and a non-degenerate pilot — some level has positive variance, i.e.
`sum_sqrt_vc > 0`, without which the program divides by zero and its sample
sizes degenerate to NaN — the projected total cost after the correction pass
is within one level-0 unit cost of the target; and when the target is below
level 0's unit cost, exactly one sample is allocated to level 0 and none to
any other level. -/
theorem budget_fit_single_process {L : ℕ} (epsilons : Fin 1 → ℝ)
    (costs : Fin (L+1) → ℝ) (variances : Fin (L+1) → Fin 1 → ℝ) (T : ℝ)
    (hc : ∀ l, 0 < costs l) (hmin : ∀ l, costs 0 ≤ costs l)
    (hv : ∀ l q, 0 ≤ variances l q) (hT : 0 < T)
    (hS : 0 < sum_sqrt_vc costs variances 0) :
    |T - ∑ l, costs l *
        compute_optimal_sample_sizes (some T) 1 epsilons costs variances l|
      ≤ costs 0 ∧
    (T < costs 0 →
      compute_optimal_sample_sizes (some T) 1 epsilons costs variances 0 = 1 ∧
      ∀ l, l ≠ 0 →
        compute_optimal_sample_sizes (some T) 1 epsilons costs variances l = 0) := by
  have hTsome : ∀ t : ℝ, some T = some t → 0 ≤ t := by
    intro t h
    injection h with h'
    rw [← h']
    exact hT.le
  set s0 := raw_sample_sizes (some T) 1 epsilons costs variances with hs0
  have hnn0 : ∀ l, 0 ≤ s0 l := fun l =>
    raw_sample_sizes_nonneg (some T) 1 epsilons costs variances l hTsome
  have hint0 : ∀ l, IsIntR (s0 l) := fun l =>
    raw_sample_sizes_isInt (some T) 1 epsilons costs variances l
  have htot : ∑ l, costs l * s0 l ≤ T :=
    raw_budget_total_le epsilons costs variances T hc hv hT.le hS
  have hd0 : 0 ≤ T - ∑ j, costs j * s0 j := by linarith
  have hfit := fit_result_nonneg_int_sum costs T s0 hnn0 hint0
  have hfin : ∀ l, compute_optimal_sample_sizes (some T) 1 epsilons costs variances l
      = fit_samples_sizes_to_target_cost costs T s0 l := by
    intro l
    rw [compute_optimal_sample_sizes_budget_def]
    exact (hfit.2.1 l).truncR_eq
  constructor
  · rw [Finset.sum_congr rfl fun l _ => by rw [hfin l]]
    exact fit_result_bound costs T s0 hc hT hnn0 hint0 hd0
  · intro hTlt
    have hall : ∀ l, s0 l = 0 := by
      intro l
      by_contra hne
      have h1l : 1 ≤ s0 l := (hint0 l).one_le_of_pos (hnn0 l) hne
      have hterm : costs l ≤ costs l * s0 l := by nlinarith [hc l]
      have hterm_le : costs l * s0 l ≤ ∑ j, costs j * s0 j :=
        Finset.single_le_sum (fun j _ => mul_nonneg (hc j).le (hnn0 j))
          (Finset.mem_univ l)
      linarith [hmin l]
    have hsum0 : ∑ j, costs j * s0 j = 0 :=
      Finset.sum_eq_zero fun j _ => by rw [hall j, mul_zero]
    have hsumsz : ∑ j, s0 j = 0 := Finset.sum_eq_zero fun j _ => hall j
    have hguard : ¬ (costs 0 < |T - ∑ j, costs j * s0 j|) := by
      rw [hsum0, sub_zero, abs_of_nonneg hT.le]
      exact not_lt.2 hTlt.le
    have hfitval : ∀ l, fit_samples_sizes_to_target_cost costs T s0 l
        = Function.update s0 0 1 l := by
      intro l
      simp only [fit_samples_sizes_to_target_cost, if_neg hguard, if_pos hsumsz]
    constructor
    · rw [hfin 0, hfitval 0]
      simp
    · intro l hl
      rw [hfin l, hfitval l, Function.update_noteq hl, hall l]

/-- C3 counterexample: budget mode on a single process with two levels,
costs `[4, 1]` (level 0 not the cheapest), variances `[[0], [1]]` and target
cost `2 < costs[0] = 4`: the optimizer allocates 2 samples to level 1 and
none to level 0, not "exactly one sample to level 0 and no samples to any
other level" as the claim requires when the target is below the cheapest
(level-0) unit cost. -/
theorem budget_fit_target_below_level0_counterexample :
    ((2 : ℝ) < (![4, 1] : Fin 2 → ℝ) 0) ∧
    compute_optimal_sample_sizes (some (2 : ℝ)) 1 (fun _ : Fin 1 => (1 : ℝ))
      (![4, 1] : Fin 2 → ℝ) (![![0], ![1]] : Fin 2 → Fin 1 → ℝ) 1 = 2 := by
  constructor
  · norm_num
  · have hS : sum_sqrt_vc (![4, 1] : Fin 2 → ℝ) (![![0], ![1]] : Fin 2 → Fin 1 → ℝ) 0
        = 1 := by
      rw [sum_sqrt_vc, Fin.sum_univ_two]
      norm_num
    have hmu : mu_value (some (2 : ℝ)) 1 (fun _ : Fin 1 => (1 : ℝ))
        (![4, 1] : Fin 2 → ℝ) (![![0], ![1]] : Fin 2 → Fin 1 → ℝ) 0 = 2 := by
      show (2 : ℝ) * ((1 : ℕ) : ℝ) / sum_sqrt_vc _ _ 0 = 2
      rw [hS]
      norm_num
    have hraw0 : raw_sample_sizes (some (2 : ℝ)) 1 (fun _ : Fin 1 => (1 : ℝ))
        (![4, 1] : Fin 2 → ℝ) (![![0], ![1]] : Fin 2 → Fin 1 → ℝ) 0 = 0 := by
      rw [raw_sample_sizes_fin_one, hmu]
      norm_num [truncR_zero]
    have hraw1 : raw_sample_sizes (some (2 : ℝ)) 1 (fun _ : Fin 1 => (1 : ℝ))
        (![4, 1] : Fin 2 → ℝ) (![![0], ![1]] : Fin 2 → Fin 1 → ℝ) 1 = 2 := by
      rw [raw_sample_sizes_fin_one, hmu]
      have : ((![![0], ![1]] : Fin 2 → Fin 1 → ℝ) 1 0) / ((![4, 1] : Fin 2 → ℝ) 1)
          = 1 := by norm_num
      rw [this, Real.sqrt_one, mul_one]
      exact (IsIntR.truncR_eq ⟨2, by norm_num⟩)
    set s0 := raw_sample_sizes (some (2 : ℝ)) 1 (fun _ : Fin 1 => (1 : ℝ))
      (![4, 1] : Fin 2 → ℝ) (![![0], ![1]] : Fin 2 → Fin 1 → ℝ) with hs0
    have hcostsum : ∑ j, (![4, 1] : Fin 2 → ℝ) j * s0 j = 2 := by
      rw [Fin.sum_univ_two, hraw0, hraw1]
      norm_num
    have hszsum : ∑ j, s0 j = 2 := by
      rw [Fin.sum_univ_two, hraw0, hraw1]
      norm_num
    have hguard : ¬ ((![4, 1] : Fin 2 → ℝ) 0
        < |(2 : ℝ) - ∑ j, (![4, 1] : Fin 2 → ℝ) j * s0 j|) := by
      rw [hcostsum]
      norm_num
    have hnz : ¬ ((∑ j, s0 j) = 0) := by
      rw [hszsum]
      norm_num
    have hfitval : fit_samples_sizes_to_target_cost (![4, 1] : Fin 2 → ℝ) 2 s0 1
        = s0 1 := by
      simp only [fit_samples_sizes_to_target_cost, if_neg hguard, if_neg hnz]
    rw [compute_optimal_sample_sizes_budget_def, ← hs0, hfitval, hraw1]
    exact IsIntR.truncR_eq ⟨2, by norm_num⟩

/-- C3 witness: one level of unit cost, unit variance (non-degenerate
pilot), target cost 10. -/
theorem budget_fit_single_process_witness :
    ((∀ l : Fin 1, 0 < (fun _ : Fin 1 => (1 : ℝ)) l) ∧
     (∀ l : Fin 1, (fun _ : Fin 1 => (1 : ℝ)) 0 ≤ (fun _ : Fin 1 => (1 : ℝ)) l) ∧
     (∀ (l : Fin 1) (q : Fin 1), 0 ≤ (fun (_ : Fin 1) (_ : Fin 1) => (1 : ℝ)) l q) ∧
     (0 : ℝ) < 10 ∧
     0 < sum_sqrt_vc (fun _ : Fin 1 => (1 : ℝ))
       (fun (_ : Fin 1) (_ : Fin 1) => (1 : ℝ)) 0) ∧
    |(10 : ℝ) - ∑ l, (fun _ : Fin 1 => (1 : ℝ)) l *
        compute_optimal_sample_sizes (some (10 : ℝ)) 1 (fun _ : Fin 1 => (1 : ℝ))
          (fun _ : Fin 1 => (1 : ℝ)) (fun (_ : Fin 1) (_ : Fin 1) => (1 : ℝ)) l|
      ≤ (fun _ : Fin 1 => (1 : ℝ)) 0 := by
  have hS : (0 : ℝ) < sum_sqrt_vc (fun _ : Fin 1 => (1 : ℝ))
      (fun (_ : Fin 1) (_ : Fin 1) => (1 : ℝ)) 0 := by
    simp [sum_sqrt_vc]
  exact ⟨⟨fun _ => one_pos, fun _ => le_refl 1, fun _ _ => zero_le_one,
      by norm_num, hS⟩,
    (budget_fit_single_process (fun _ : Fin 1 => (1 : ℝ)) (fun _ : Fin 1 => (1 : ℝ))
      (fun (_ : Fin 1) (_ : Fin 1) => (1 : ℝ)) 10 (fun _ => one_pos)
      (fun _ => le_refl 1) (fun _ _ => zero_le_one) (by norm_num) hS).1⟩

/-! ### Theorems for claim C7: source exhaustion in the simulation loop -/

/-- The per-level sample counts the spec's words prescribe: the actual
number obtained at each level is the minimum of the allocated count and the
samples remaining in the stream. -/
def obtained_sizes : List ℕ → ℕ → List ℕ
  | [], _ => []
  | r :: rs, n => min r n :: obtained_sizes rs (n - min r n)

/-- The evaluator of one main-loop sample, with the absolute sample index
given as the number of samples consumed at lower levels plus the local
index. -/
def spec_evaluate {S G : Type} [AddCommGroup G] (models : ℕ → S → G)
    (cache : ℕ → ℕ → G) (N consumed level i : ℕ) (sample : S) : G :=
  if 0 < N then
    evaluate_sample_lookup models cache N (consumed + i) level sample
  else level_difference models level sample

/-- The simulation loop as the spec describes it: at each level take the
samples actually obtainable from the remaining stream, record their number,
and accumulate `sum(differences)/num` and `var(differences)/num` computed
over exactly those samples (an empty level contributes nothing; division by
zero is zero). -/
noncomputable def spec_loop {S : Type} {m : ℕ} (models : ℕ → S → (Fin m → ℝ))
    (cache : ℕ → ℕ → (Fin m → ℝ)) (N : ℕ) :
    ℕ → ℕ → List ℕ → List S → (List ℕ × (Fin m → ℝ) × (Fin m → ℝ))
  | _, _, [], _ => ([], fun _ => 0, fun _ => 0)
  | level, consumed, r :: rs, src =>
      ((src.take r).length ::
        (spec_loop models cache N (level + 1) (consumed + (src.take r).length) rs
          (src.drop r)).1,
       fun q =>
         vec_sum ((src.take r).mapIdx fun i sample =>
             spec_evaluate models cache N consumed level i sample) q
           / (((src.take r).length : ℕ) : ℝ)
         + (spec_loop models cache N (level + 1) (consumed + (src.take r).length) rs
             (src.drop r)).2.1 q,
       fun q =>
         vec_var ((src.take r).mapIdx fun i sample =>
             spec_evaluate models cache N consumed level i sample) q
           / (((src.take r).length : ℕ) : ℝ)
         + (spec_loop models cache N (level + 1) (consumed + (src.take r).length) rs
             (src.drop r)).2.2 q)

theorem mapIdx_congr {α β : Type} (f g : ℕ → α → β) (xs : List α)
    (h : ∀ i a, f i a = g i a) : xs.mapIdx f = xs.mapIdx g := by
  induction xs generalizing f g with
  | nil => rfl
  | cons x xs ih =>
    rw [List.mapIdx_cons, List.mapIdx_cons, h 0 x,
      ih (fun i => f (i + 1)) (fun i => g (i + 1)) fun i a => h (i + 1) a]

theorem sum_range_update (f : ℕ → ℕ) (level v : ℕ) :
    ∑ k ∈ Finset.range level, Function.update f level v k
      = ∑ k ∈ Finset.range level, f k :=
  Finset.sum_congr rfl fun k hk =>
    Function.update_noteq (Nat.ne_of_lt (Finset.mem_range.1 hk)) v f

theorem evaluate_sample_eq_spec {S G : Type} [AddCommGroup G]
    (models : ℕ → S → G) (cache : ℕ → ℕ → G) (N : ℕ) (cpuSizes : ℕ → ℕ)
    (level i consumed : ℕ) (sample : S)
    (h : ∑ k ∈ Finset.range level, cpuSizes k = consumed) :
    evaluate_sample models cache N cpuSizes level i sample
      = spec_evaluate models cache N consumed level i sample := by
  unfold evaluate_sample spec_evaluate
  rw [h]

/-- The spec loop's recorded sizes are exactly the `min(allocated,
remaining)` recursion. -/
theorem spec_loop_sizes_eq_obtained {S : Type} {m : ℕ}
    (models : ℕ → S → (Fin m → ℝ)) (cache : ℕ → ℕ → (Fin m → ℝ)) (N : ℕ) :
    ∀ (rs : List ℕ) (level consumed : ℕ) (src : List S),
      (spec_loop models cache N level consumed rs src).1
        = obtained_sizes rs src.length := by
  intro rs
  induction rs with
  | nil => intro level consumed src; rfl
  | cons r rs ih =>
    intro level consumed src
    show (src.take r).length :: _ = min r src.length :: _
    rw [List.length_take,
      ih (level + 1) (consumed + min r src.length) (src.drop r), List.length_drop]
    have : src.length - r = src.length - min r src.length := by omega
    rw [this]

/-- The actual counts never exceed the allocated counts. -/
theorem obtained_sizes_le (rs : List ℕ) :
    ∀ (n : ℕ) (l : ℕ), (obtained_sizes rs n).getD l 0 ≤ rs.getD l 0 := by
  induction rs with
  | nil => intro n l; simp [obtained_sizes]
  | cons r rs ih =>
    intro n l
    cases l with
    | zero => simpa [obtained_sizes] using Nat.min_le_left r n
    | succ l => simpa [obtained_sizes] using ih (n - min r n) l

/-- All branches of one loop iteration collapse to a single form: the stream
advances by the samples obtained, the level's count becomes the number
obtained, and the accumulators gain `sum/num` and `var/num` over the
obtained samples (zero when none were obtained, matching the skipped
branches, since empty sums and division by zero vanish). -/
theorem run_level_eq {S : Type} {m : ℕ} (models : ℕ → S → (Fin m → ℝ))
    (cache : ℕ → ℕ → (Fin m → ℝ)) (N level r : ℕ) (st : LoopState m S)
    (hlev : st.cpuSampleSizes level = r) :
    run_level models cache N level r st
      = ⟨st.src.drop r,
         Function.update st.cpuSampleSizes level (st.src.take r).length,
         fun q => st.estimates q +
           vec_sum ((st.src.take r).mapIdx fun i sample =>
             evaluate_sample models cache N
               (Function.update st.cpuSampleSizes level (st.src.take r).length)
               level i sample) q / (((st.src.take r).length : ℕ) : ℝ),
         fun q => st.variances q +
           vec_var ((st.src.take r).mapIdx fun i sample =>
             evaluate_sample models cache N
               (Function.update st.cpuSampleSizes level (st.src.take r).length)
               level i sample) q / (((st.src.take r).length : ℕ) : ℝ)⟩ := by
  obtain ⟨src0, sizes0, est0, var0⟩ := st
  simp only at hlev
  by_cases hr : r = 0
  · subst hr
    simp only [run_level, if_pos rfl, List.drop_zero, List.take_zero,
      List.length_nil, List.mapIdx_nil]
    have hupd : Function.update sizes0 level 0 = sizes0 := by
      rw [← hlev]
      exact Function.update_eq_self level sizes0
    rw [hupd]
    simp [vec_sum, vec_var, var_list, mean_list]
  · simp only [run_level, if_neg hr]
    by_cases hnum : (src0.take r).length = 0
    · rw [if_pos hnum]
      have hnil : src0.take r = [] := List.length_eq_zero.1 hnum
      simp [hnil, vec_sum, vec_var, var_list, mean_list]
    · rw [if_neg hnum]

/-- The simulation loop refines the spec loop: lower levels are untouched,
each processed level records the spec's obtained count, and the accumulators
gain exactly the spec's per-level contributions. -/
theorem run_loop_spec {S : Type} {m : ℕ} (models : ℕ → S → (Fin m → ℝ))
    (cache : ℕ → ℕ → (Fin m → ℝ)) (N : ℕ) :
    ∀ (rs : List ℕ) (level consumed : ℕ) (st : LoopState m S),
      (∑ k ∈ Finset.range level, st.cpuSampleSizes k = consumed) →
      (∀ j, st.cpuSampleSizes (level + j) = rs.getD j 0) →
      ((∀ k, k < level →
          (run_loop models cache N level rs st).cpuSampleSizes k
            = st.cpuSampleSizes k) ∧
       (∀ j, j < rs.length →
          (run_loop models cache N level rs st).cpuSampleSizes (level + j)
            = (spec_loop models cache N level consumed rs st.src).1.getD j 0) ∧
       (∀ q, (run_loop models cache N level rs st).estimates q
          = st.estimates q
            + (spec_loop models cache N level consumed rs st.src).2.1 q) ∧
       (∀ q, (run_loop models cache N level rs st).variances q
          = st.variances q
            + (spec_loop models cache N level consumed rs st.src).2.2 q)) := by
  intro rs
  induction rs with
  | nil =>
    intro level consumed st hsum htail
    refine ⟨fun k _ => rfl, fun j hj => absurd hj (by simp), fun q => ?_,
      fun q => ?_⟩
    · show st.estimates q = st.estimates q + 0
      rw [add_zero]
    · show st.variances q = st.variances q + 0
      rw [add_zero]
  | cons r rs ih =>
    intro level consumed st hsum htail
    have hlev : st.cpuSampleSizes level = r := by
      have h := htail 0
      simpa using h
    have hrl : run_loop models cache N level (r :: rs) st
        = run_loop models cache N (level + 1) rs
            (run_level models cache N level r st) := rfl
    rw [hrl, run_level_eq models cache N level r st hlev]
    set num := (st.src.take r).length with hnum
    set sizes' := Function.update st.cpuSampleSizes level num with hsizes'
    set st1 : LoopState m S :=
      ⟨st.src.drop r, sizes',
       fun q => st.estimates q +
         vec_sum ((st.src.take r).mapIdx fun i sample =>
           evaluate_sample models cache N sizes' level i sample) q / ((num : ℕ) : ℝ),
       fun q => st.variances q +
         vec_var ((st.src.take r).mapIdx fun i sample =>
           evaluate_sample models cache N sizes' level i sample) q / ((num : ℕ) : ℝ)⟩
      with hst1
    have hsumlow : ∑ k ∈ Finset.range level, sizes' k = consumed := by
      rw [hsizes', sum_range_update, hsum]
    have hsum' : ∑ k ∈ Finset.range (level + 1), st1.cpuSampleSizes k
        = consumed + num := by
      show ∑ k ∈ Finset.range (level + 1), sizes' k = consumed + num
      rw [Finset.sum_range_succ, hsumlow, hsizes', Function.update_same]
    have htail' : ∀ j, st1.cpuSampleSizes (level + 1 + j) = rs.getD j 0 := by
      intro j
      show sizes' (level + 1 + j) = rs.getD j 0
      rw [hsizes', Function.update_noteq (by omega)]
      have h := htail (j + 1)
      have harith : level + (j + 1) = level + 1 + j := by omega
      rw [harith] at h
      simpa using h
    have hih := ih (level + 1) (consumed + num) st1 hsum' htail'
    have hsrc1 : st1.src = st.src.drop r := rfl
    have hdiffs : ((st.src.take r).mapIdx fun i sample =>
          evaluate_sample models cache N sizes' level i sample)
        = ((st.src.take r).mapIdx fun i sample =>
          spec_evaluate models cache N consumed level i sample) :=
      mapIdx_congr _ _ _ fun i sample =>
        evaluate_sample_eq_spec models cache N sizes' level i consumed sample hsumlow
    refine ⟨?_, ?_, ?_, ?_⟩
    · intro k hk
      rw [hih.1 k (by omega)]
      show sizes' k = st.cpuSampleSizes k
      rw [hsizes', Function.update_noteq (by omega)]
    · intro j hj
      cases j with
      | zero =>
        have h0 : (run_loop models cache N (level + 1) rs st1).cpuSampleSizes level
            = sizes' level := hih.1 level (by omega)
        show (run_loop models cache N (level + 1) rs st1).cpuSampleSizes level
          = (spec_loop models cache N level consumed (r :: rs) st.src).1.getD 0 0
        rw [h0, hsizes', Function.update_same]
        show num = (spec_loop models cache N level consumed (r :: rs) st.src).1.getD 0 0
        simp only [spec_loop, ← hnum]
        rfl
      | succ j' =>
        have harith : level + (j' + 1) = level + 1 + j' := by omega
        rw [harith, hih.2.1 j' (by simpa using hj)]
        show (spec_loop models cache N (level + 1) (consumed + num) rs st1.src).1.getD j' 0
          = (spec_loop models cache N level consumed (r :: rs) st.src).1.getD (j' + 1) 0
        rw [hsrc1]
        simp only [spec_loop, ← hnum]
        rfl
    · intro q
      rw [hih.2.2.1 q]
      show st.estimates q +
          vec_sum ((st.src.take r).mapIdx fun i sample =>
            evaluate_sample models cache N sizes' level i sample) q / ((num : ℕ) : ℝ)
          + (spec_loop models cache N (level + 1) (consumed + num) rs st1.src).2.1 q
        = st.estimates q
          + (spec_loop models cache N level consumed (r :: rs) st.src).2.1 q
      rw [hdiffs, hsrc1]
      simp only [spec_loop, ← hnum]
      ring
    · intro q
      rw [hih.2.2.2 q]
      show st.variances q +
          vec_var ((st.src.take r).mapIdx fun i sample =>
            evaluate_sample models cache N sizes' level i sample) q / ((num : ℕ) : ℝ)
          + (spec_loop models cache N (level + 1) (consumed + num) rs st1.src).2.2 q
        = st.variances q
          + (spec_loop models cache N level consumed (r :: rs) st.src).2.2 q
      rw [hdiffs, hsrc1]
      simp only [spec_loop, ← hnum]
      ring

/-- C7: when the source yields fewer samples than allocated, the loop (a
total function — no error) records the actual number obtained
(`min(allocated, remaining)`) as the level's per-process count, never more
than allocated; the estimate and variance accumulators equal the spec's
sums over exactly the obtained samples; and the realized sample-size vector
`_run_simulation` returns reflects samples actually used. -/
theorem run_simulation_loop_exhaustion {S : Type} {m : ℕ}
    (models : ℕ → S → (Fin m → ℝ)) (cache : ℕ → ℕ → (Fin m → ℝ)) (N : ℕ)
    (sampleSizes : List ℕ) (src : List S) :
    (∀ l, l < sampleSizes.length →
      (run_simulation_loop models cache N sampleSizes src).cpuSampleSizes l
        = (obtained_sizes sampleSizes src.length).getD l 0) ∧
    (∀ l, (obtained_sizes sampleSizes src.length).getD l 0
        ≤ sampleSizes.getD l 0) ∧
    (∀ q, (run_simulation_loop models cache N sampleSizes src).estimates q
        = (spec_loop models cache N 0 0 sampleSizes src).2.1 q) ∧
    (∀ q, (run_simulation_loop models cache N sampleSizes src).variances q
        = (spec_loop models cache N 0 0 sampleSizes src).2.2 q) ∧
    (∀ l, l < sampleSizes.length →
      run_simulation_sample_sizes models cache N sampleSizes src l
        = (obtained_sizes sampleSizes src.length).getD l 0) := by
  have hsum : ∑ k ∈ Finset.range 0,
      (⟨src, fun l => sampleSizes.getD l 0, fun _ => 0, fun _ => 0⟩ :
        LoopState m S).cpuSampleSizes k = 0 := by
    simp
  have htail : ∀ j, (⟨src, fun l => sampleSizes.getD l 0, fun _ => 0, fun _ => 0⟩ :
      LoopState m S).cpuSampleSizes (0 + j) = sampleSizes.getD j 0 := by
    intro j
    simp
  have h := run_loop_spec models cache N sampleSizes 0 0
    ⟨src, fun l => sampleSizes.getD l 0, fun _ => 0, fun _ => 0⟩ hsum htail
  have hsz := spec_loop_sizes_eq_obtained models cache N sampleSizes 0 0 src
  have ha : ∀ l, l < sampleSizes.length →
      (run_simulation_loop models cache N sampleSizes src).cpuSampleSizes l
        = (obtained_sizes sampleSizes src.length).getD l 0 := by
    intro l hl
    have h2 := h.2.1 l hl
    rw [Nat.zero_add] at h2
    rw [show (run_simulation_loop models cache N sampleSizes src)
        = run_loop models cache N 0 sampleSizes
            ⟨src, fun l => sampleSizes.getD l 0, fun _ => 0, fun _ => 0⟩ from rfl,
      h2, hsz]
  refine ⟨ha, fun l => obtained_sizes_le sampleSizes src.length l, ?_, ?_, ?_⟩
  · intro q
    have h3 := h.2.2.1 q
    rw [show (run_simulation_loop models cache N sampleSizes src)
        = run_loop models cache N 0 sampleSizes
            ⟨src, fun l => sampleSizes.getD l 0, fun _ => 0, fun _ => 0⟩ from rfl,
      h3]
    show 0 + _ = _
    rw [zero_add]
  · intro q
    have h3 := h.2.2.2 q
    rw [show (run_simulation_loop models cache N sampleSizes src)
        = run_loop models cache N 0 sampleSizes
            ⟨src, fun l => sampleSizes.getD l 0, fun _ => 0, fun _ => 0⟩ from rfl,
      h3]
    show 0 + _ = _
    rw [zero_add]
  · intro l hl
    exact ha l hl

/-- C7 witness: allocation `[3, 5]` against a stream of only 4 samples. -/
theorem run_simulation_loop_exhaustion_witness :
    (1 < 2) ∧
    (run_simulation_loop (fun _ _ => fun _ : Fin 1 => (0 : ℝ))
        (fun _ _ => fun _ : Fin 1 => (0 : ℝ)) 1 [3, 5]
        [10, 20, 30, 40]).cpuSampleSizes 1
      = (obtained_sizes [3, 5] ([10, 20, 30, 40] : List ℕ).length).getD 1 0 :=
  ⟨by decide,
    (run_simulation_loop_exhaustion (fun _ _ => fun _ : Fin 1 => (0 : ℝ))
      (fun _ _ => fun _ : Fin 1 => (0 : ℝ)) 1 [3, 5] [10, 20, 30, 40]).1 1
      (by decide)⟩
